import Mathlib

/-!
Formal model of the FreGrad inference driver (`inference.py`): the noise
schedule derivation, the time-warp schedule builder, the reverse-diffusion
sampling loop, and the post-processing dispatch.  Machine floats are
modelled by exact rationals; the float square root (`** 0.5`) is an
abstract function parameter, assumed strictly monotone where a claim
needs it (the real square root is strictly monotone on the nonnegative
reals, the only inputs the code feeds it).
-/

/-- Running cumulative product with an accumulator, mirroring `np.cumprod`. -/
def cumprodAux (acc : ℚ) : List ℚ → List ℚ
  | [] => []
  | x :: xs => (acc * x) :: cumprodAux (acc * x) xs

/-- `np.cumprod l`: the list of partial products of `l`. -/
def cumprod (l : List ℚ) : List ℚ := cumprodAux 1 l

/-- `np.cumprod(1 - schedule)`, as computed at `inference.py` lines 267-272
for both the training schedule (`talpha_cum`) and the loop schedule
(`alpha_cum`). -/
def alphaCum (betas : List ℚ) : List ℚ := cumprod (betas.map (fun b => 1 - b))

/-- The bracket test of the inner search loop, `inference.py` line 277:
`talpha_cum[t + 1] <= alpha_cum[s] <= talpha_cum[t]`. -/
def bprop (tc : List ℚ) (x : ℚ) (t : ℕ) : Prop :=
  tc.getD (t + 1) 0 ≤ x ∧ x ≤ tc.getD t 0

instance (tc : List ℚ) (x : ℚ) (t : ℕ) : Decidable (bprop tc x t) :=
  inferInstanceAs (Decidable (_ ∧ _))

/-- Scan `r` candidate indices starting at `t`, returning the first index
whose bracket test succeeds — the `for t in range(...)` loop with `break`
at `inference.py` lines 276-282. -/
def bracketSearch (tc : List ℚ) (x : ℚ) : ℕ → ℕ → Option ℕ
  | _, 0 => none
  | t, r + 1 => if bprop tc x t then some t else bracketSearch tc x (t + 1) r

/-- First training index `t` with `tc[t+1] <= x <= tc[t]`, scanning
`t = 0, 1, ..., len(tc) - 2` as the source does. -/
def findBracket (tc : List ℚ) (x : ℚ) : Option ℕ :=
  bracketSearch tc x 0 (tc.length - 1)

/-- The value appended for one inference step (`inference.py` lines 278-281):
`t + twiddle` with
`twiddle = (sqrt tc[t] - sqrt x) / (sqrt tc[t] - sqrt tc[t+1])`,
or nothing when no bracket is found. -/
def warpEntry (sq : ℚ → ℚ) (tc : List ℚ) (x : ℚ) : Option ℚ :=
  (findBracket tc x).map (fun (t : ℕ) =>
    (t : ℚ) + (sq (tc.getD t 0) - sq x) / (sq (tc.getD t 0) - sq (tc.getD (t + 1) 0)))

/-- The schedule builder's output `T` over given cumulative-alpha sequences:
one entry per inference step that finds a bracket, in order
(`inference.py` lines 274-283). -/
def timeWarp (sq : ℚ → ℚ) (tc acs : List ℚ) : List ℚ :=
  acs.filterMap (warpEntry sq tc)

/-- The schedule builder applied to raw beta schedules. -/
def buildT (sq : ℚ → ℚ) (training inference : List ℚ) : List ℚ :=
  timeWarp sq (alphaCum training) (alphaCum inference)

/-- The two schedule hyperparameters read by `main`. -/
structure Params where
  noise_schedule : List ℚ
  inference_noise_schedule : List ℚ

/-- `np.linspace a b n`: `n` evenly spaced points from `a` to `b` inclusive. -/
def linspace (a b : ℚ) (n : ℕ) : List ℚ :=
  (List.range n).map (fun (i : ℕ) => a + (b - a) * (i : ℚ) / ((n : ℚ) - 1))

/-- The `--fast_iter` override table, `inference.py` lines 186-220. -/
def fastOverrideSchedule (k : ℕ) (p : Params) : List ℚ :=
  if k = 6 then p.noise_schedule.take 1 ++ [215/10000, 45/1000, 8/100, 2/10, 5/10]
  else if k = 3 then p.noise_schedule.take 1 ++ [1/10, 95/100]
  else if k = 2 then [4/100, 95/100]
  else if k = 12 then
    [1/10000, 5/10000, 8/10000, 1/1000, 5/1000, 8/1000, 1/100, 5/100, 8/100, 1/10, 2/10, 5/10]
  else linspace (1/10000) (5/100) k

/-- Effect of `--fast` / `--fast_iter` on the saved params
(`inference.py` lines 184-229): with both given, `inference_noise_schedule`
is replaced by the override table entry. -/
def updateParams (fast : Bool) (fast_iter : Option ℕ) (p : Params) : Params :=
  if fast then
    match fast_iter with
    | some k => { p with inference_noise_schedule := fastOverrideSchedule k p }
    | none => p
  else p

/-- The schedule actually used as the sampling loop's `beta`
(`inference.py` lines 259-265, 270): `fast_sampling` is hard-coded to
`False`, so the training schedule is selected. -/
def mainLoopBeta (p : Params) : List ℚ :=
  let fast_sampling := false
  if fast_sampling then p.inference_noise_schedule else p.noise_schedule

/-- An audio tensor, flattened to its rational entries; every tensor
operation the sampler uses is elementwise. -/
abbrev Audio := List ℚ

/-- Reading the `enable_remove_cutoff_alias` attribute; reading a missing
attribute is an error (Python `AttributeError`). -/
def attrFlag (a : Option Bool) : Except Unit Bool :=
  match a with
  | some b => Except.ok b
  | none => Except.error ()

/-- The post-processing dispatch at `inference.py` lines 341-344:
`if hasattr(params, "enable_remove_cutoff_alias") and params.enable_remove_cutoff_alias`
selects the alias filter, otherwise the two bands pass through unchanged.
The filter itself (`remove_cutoff_alias`) is an opaque parameter `filt`. -/
def postProcess (filt : Audio × Audio → Audio × Audio) (enable : Option Bool)
    (low high : Audio) : Except Unit (Audio × Audio) :=
  if enable.isSome then
    match attrFlag enable with
    | Except.error e => Except.error e
    | Except.ok b => if b then Except.ok (filt (low, high)) else Except.ok (low, high)
  else Except.ok (low, high)

lemma cumprodAux_pos_lt (l : List ℚ) :
    ∀ acc : ℚ, 0 < acc → (∀ b ∈ l, 0 < b ∧ b < 1) →
      List.Pairwise (fun a b => b < a) (cumprodAux acc l)
        ∧ ∀ x ∈ cumprodAux acc l, 0 < x ∧ x < acc := by
  induction l with
  | nil =>
    intro acc _ _
    exact ⟨List.Pairwise.nil, by simp [cumprodAux]⟩
  | cons c cs ih =>
    intro acc hacc hmem
    obtain ⟨hc0, hc1⟩ := hmem c (by simp)
    have hacc' : 0 < acc * c := mul_pos hacc hc0
    have hlt : acc * c < acc := by nlinarith
    obtain ⟨hpw, hbd⟩ := ih (acc * c) hacc' (fun b hb => hmem b (by simp [hb]))
    simp only [cumprodAux]
    refine ⟨List.Pairwise.cons (fun y hy => (hbd y hy).2) hpw, ?_⟩
    intro x hx
    rcases List.mem_cons.mp hx with h | h
    · exact h ▸ ⟨hacc', hlt⟩
    · exact ⟨(hbd x h).1, lt_trans (hbd x h).2 hlt⟩

lemma alphaCum_pairwise_lt (betas : List ℚ) (h : ∀ b ∈ betas, 0 < b ∧ b < 1) :
    List.Pairwise (fun a b => b < a) (alphaCum betas)
      ∧ ∀ x ∈ alphaCum betas, 0 < x ∧ x < 1 := by
  have h' : ∀ b ∈ betas.map (fun b => 1 - b), 0 < b ∧ b < 1 := by
    intro b hb
    obtain ⟨c, hc, rfl⟩ := List.mem_map.mp hb
    obtain ⟨hc0, hc1⟩ := h c hc
    constructor <;> linarith
  exact cumprodAux_pos_lt _ 1 one_pos h'

/-- C7: for any noise schedule with beta values in (0,1), the cumulative
product `alpha_cum = cumprod(1 - beta)` is monotonically non-increasing
and every element lies in (0, 1]. -/
theorem alpha_cum_monotone_bounded (betas : List ℚ)
    (h : ∀ b ∈ betas, 0 < b ∧ b < 1) :
    List.Pairwise (fun a b => b ≤ a) (alphaCum betas)
      ∧ ∀ x ∈ alphaCum betas, 0 < x ∧ x ≤ 1 := by
  obtain ⟨hpw, hbd⟩ := alphaCum_pairwise_lt betas h
  exact ⟨hpw.imp le_of_lt, fun x hx => ⟨(hbd x hx).1, le_of_lt (hbd x hx).2⟩⟩

/-- Witness for C7 at the concrete schedule `[1/2, 1/4]`. -/
theorem alpha_cum_monotone_bounded_witness :
    (∀ b ∈ [(1:ℚ)/2, 1/4], 0 < b ∧ b < 1)
      ∧ (List.Pairwise (fun a b => b ≤ a) (alphaCum [(1:ℚ)/2, 1/4])
          ∧ ∀ x ∈ alphaCum [(1:ℚ)/2, 1/4], 0 < x ∧ x ≤ 1) :=
  ⟨by with_unfolding_all decide, alpha_cum_monotone_bounded _ (by with_unfolding_all decide)⟩

/-- C1: the `--fast` flag does not reach the sampling loop.  With
`--fast --fast_iter 6` and a 50-step training schedule, the params'
`inference_noise_schedule` is replaced by the 6-step accelerated schedule,
yet the loop's `beta` is still the 50-step training schedule, because
`fast_sampling` is hard-coded to `False` at `inference.py` line 259 —
contradicting the claim (and the code's own `--fast` help text and its
"inference noise schedule updated" message). -/
theorem fast_flag_ignored :
    mainLoopBeta (updateParams true (some 6)
        (Params.mk (linspace (1/10000) (5/100) 50) (linspace (1/10000) (5/100) 50)))
      = linspace (1/10000) (5/100) 50
    ∧ (updateParams true (some 6)
        (Params.mk (linspace (1/10000) (5/100) 50)
          (linspace (1/10000) (5/100) 50))).inference_noise_schedule
      = (linspace (1/10000) (5/100) 50).take 1 ++ [215/10000, 45/1000, 8/100, 2/10, 5/10]
    ∧ mainLoopBeta (updateParams true (some 6)
        (Params.mk (linspace (1/10000) (5/100) 50) (linspace (1/10000) (5/100) 50)))
      ≠ (updateParams true (some 6)
        (Params.mk (linspace (1/10000) (5/100) 50)
          (linspace (1/10000) (5/100) 50))).inference_noise_schedule := by
  refine ⟨rfl, rfl, fun h => ?_⟩
  have h1 : (mainLoopBeta (updateParams true (some 6)
      (Params.mk (linspace (1/10000) (5/100) 50)
        (linspace (1/10000) (5/100) 50)))).length = 50 := by
    show (linspace (1/10000) (5/100) 50).length = 50
    simp only [linspace, List.length_map, List.length_range]
  have h2 : ((updateParams true (some 6)
      (Params.mk (linspace (1/10000) (5/100) 50)
        (linspace (1/10000) (5/100) 50))).inference_noise_schedule).length = 6 := by
    show ((linspace (1/10000) (5/100) 50).take 1
        ++ ([215/10000, 45/1000, 8/100, 2/10, 5/10] : List ℚ)).length = 6
    simp only [linspace, List.length_append, List.length_take, List.length_map,
      List.length_range, List.length_cons, List.length_nil]
    decide
  rw [h, h2] at h1
  exact absurd h1 (by norm_num)

/-- C10: when the hyperparameter object lacks the
`enable_remove_cutoff_alias` attribute entirely (`enable = none`),
post-processing raises no error and behaves as if alias removal were
disabled: the two bands are passed unchanged to the inverse wavelet
transform `idwt`. -/
theorem missing_attr_passthrough (filt : Audio × Audio → Audio × Audio)
    (idwt : Audio × Audio → Audio) (low high : Audio) :
    postProcess filt none low high = Except.ok (low, high)
      ∧ (postProcess filt none low high).map idwt = Except.ok (idwt (low, high)) :=
  ⟨rfl, rfl⟩

lemma bracketSearch_eq_some_iff (tc : List ℚ) (x : ℚ) :
    ∀ (r t u : ℕ), bracketSearch tc x t r = some u ↔
      t ≤ u ∧ u < t + r ∧ bprop tc x u ∧ ∀ v, t ≤ v → v < u → ¬ bprop tc x v := by
  intro r
  induction r with
  | zero =>
    intro t u
    simp only [bracketSearch]
    constructor
    · intro h; exact absurd h (by simp)
    · rintro ⟨h1, h2, -, -⟩; omega
  | succ r ih =>
    intro t u
    simp only [bracketSearch]
    by_cases hb : bprop tc x t
    · rw [if_pos hb]
      constructor
      · intro h
        have hu : t = u := by injection h
        subst hu
        exact ⟨le_refl t, by omega, hb, fun v h1 h2 => absurd h1 (by omega)⟩
      · rintro ⟨h1, h2, h3, h4⟩
        rcases Nat.eq_or_lt_of_le h1 with rfl | hlt
        · rfl
        · exact absurd hb (h4 t (le_refl t) hlt)
    · rw [if_neg hb]
      rw [ih (t + 1) u]
      constructor
      · rintro ⟨h1, h2, h3, h4⟩
        refine ⟨by omega, by omega, h3, fun v hv1 hv2 => ?_⟩
        rcases Nat.eq_or_lt_of_le hv1 with rfl | hlt
        · exact hb
        · exact h4 v hlt hv2
      · rintro ⟨h1, h2, h3, h4⟩
        have hne : t ≠ u := by rintro rfl; exact hb h3
        exact ⟨by omega, by omega, h3, fun v hv1 hv2 => h4 v (by omega) hv2⟩

lemma bracketSearch_isSome_iff (tc : List ℚ) (x : ℚ) :
    ∀ (r t : ℕ), (bracketSearch tc x t r).isSome ↔
      ∃ u, t ≤ u ∧ u < t + r ∧ bprop tc x u := by
  intro r
  induction r with
  | zero =>
    intro t
    simp only [bracketSearch]
    constructor
    · intro h; exact absurd h (by simp)
    · rintro ⟨u, h1, h2, -⟩; omega
  | succ r ih =>
    intro t
    simp only [bracketSearch]
    by_cases hb : bprop tc x t
    · rw [if_pos hb]
      simp only [Option.isSome_some, true_iff]
      exact ⟨t, le_refl t, by omega, hb⟩
    · rw [if_neg hb, ih (t + 1)]
      constructor
      · rintro ⟨u, h1, h2, h3⟩
        exact ⟨u, by omega, by omega, h3⟩
      · rintro ⟨u, h1, h2, h3⟩
        have hne : t ≠ u := by rintro rfl; exact hb h3
        exact ⟨u, by omega, by omega, h3⟩

lemma findBracket_eq_some_iff (tc : List ℚ) (x : ℚ) (u : ℕ) :
    findBracket tc x = some u ↔
      u + 1 < tc.length ∧ bprop tc x u ∧ ∀ v < u, ¬ bprop tc x v := by
  unfold findBracket
  rw [bracketSearch_eq_some_iff]
  constructor
  · rintro ⟨-, h2, h3, h4⟩
    exact ⟨by omega, h3, fun v hv => h4 v (Nat.zero_le v) hv⟩
  · rintro ⟨h1, h2, h3⟩
    exact ⟨Nat.zero_le u, by omega, h2, fun v _ hv => h3 v hv⟩

lemma findBracket_isSome_iff (tc : List ℚ) (x : ℚ) :
    (findBracket tc x).isSome ↔ ∃ u, u + 1 < tc.length ∧ bprop tc x u := by
  unfold findBracket
  rw [bracketSearch_isSome_iff]
  constructor
  · rintro ⟨u, -, h2, h3⟩
    exact ⟨u, by omega, h3⟩
  · rintro ⟨u, h1, h2⟩
    exact ⟨u, Nat.zero_le u, by omega, h2⟩

lemma pairwise_getD_lt (l : List ℚ) (h : List.Pairwise (fun a b => b < a) l)
    {i j : ℕ} (hij : i < j) (hj : j < l.length) : l.getD j 0 < l.getD i 0 := by
  have hi : i < l.length := lt_trans hij hj
  rw [List.getD_eq_get _ _ hj, List.getD_eq_get _ _ hi]
  exact (List.pairwise_iff_get.mp h) ⟨i, hi⟩ ⟨j, hj⟩ hij

lemma pairwise_getD_le (l : List ℚ) (h : List.Pairwise (fun a b => b < a) l)
    {i j : ℕ} (hij : i ≤ j) (hj : j < l.length) : l.getD j 0 ≤ l.getD i 0 := by
  rcases Nat.eq_or_lt_of_le hij with rfl | hlt
  · exact le_refl _
  · exact le_of_lt (pairwise_getD_lt l h hlt hj)

lemma length_cumprodAux (l : List ℚ) : ∀ acc, (cumprodAux acc l).length = l.length := by
  induction l with
  | nil => intro acc; rfl
  | cons c cs ih => intro acc; simp [cumprodAux, ih]

lemma length_alphaCum (betas : List ℚ) : (alphaCum betas).length = betas.length := by
  unfold alphaCum cumprod
  rw [length_cumprodAux, List.length_map]

lemma exists_bracket_of_range (tc : List ℚ) (x : ℚ) (hlen : 2 ≤ tc.length)
    (hlo : tc.getD (tc.length - 1) 0 ≤ x) (hhi : x ≤ tc.getD 0 0) :
    ∃ u, u + 1 < tc.length ∧ bprop tc x u := by
  have hex : ∃ t, tc.getD (t + 1) 0 ≤ x := by
    refine ⟨tc.length - 2, ?_⟩
    have he : tc.length - 2 + 1 = tc.length - 1 := by omega
    rw [he]; exact hlo
  refine ⟨Nat.find hex, ?_, Nat.find_spec hex, ?_⟩
  · have := Nat.find_min' hex (by
      have he : tc.length - 2 + 1 = tc.length - 1 := by omega
      rw [he]; exact hlo)
    omega
  · rcases Nat.eq_zero_or_pos (Nat.find hex) with h0 | hpos
    · rw [h0]; exact hhi
    · have hmin : ¬ tc.getD (Nat.find hex - 1 + 1) 0 ≤ x :=
        Nat.find_min hex (by omega)
      have he : Nat.find hex - 1 + 1 = Nat.find hex := by omega
      rw [he] at hmin
      exact le_of_lt (lt_of_not_le hmin)

lemma no_bracket_of_outside (tc : List ℚ)
    (hpw : List.Pairwise (fun a b => b < a) tc) (x : ℚ)
    (hout : x < tc.getD (tc.length - 1) 0 ∨ tc.getD 0 0 < x) :
    ∀ u, u + 1 < tc.length → ¬ bprop tc x u := by
  rintro u hu ⟨h1, h2⟩
  rcases hout with hlt | hgt
  · have hle : tc.getD (tc.length - 1) 0 ≤ tc.getD (u + 1) 0 :=
      pairwise_getD_le tc hpw (by omega) (by omega)
    linarith
  · have hle : tc.getD u 0 ≤ tc.getD 0 0 :=
      pairwise_getD_le tc hpw (Nat.zero_le u) (by omega)
    linarith

lemma warpEntry_isSome_iff (sq : ℚ → ℚ) (tc : List ℚ) (x : ℚ) :
    (warpEntry sq tc x).isSome ↔ (findBracket tc x).isSome := by
  simp [warpEntry]

lemma length_filterMap_of_all_isSome {α β : Type} (f : α → Option β) (l : List α)
    (h : ∀ x ∈ l, (f x).isSome) : (l.filterMap f).length = l.length := by
  induction l with
  | nil => rfl
  | cons a as ih =>
    obtain ⟨b, hb⟩ := Option.isSome_iff_exists.mp (h a (by simp))
    rw [List.filterMap_cons_some hb, List.length_cons, List.length_cons,
      ih (fun x hx => h x (by simp [hx]))]

lemma length_filterMap_lt_of_none {α β : Type} (f : α → Option β) (l : List α)
    (h : ∃ x ∈ l, f x = none) : (l.filterMap f).length < l.length := by
  induction l with
  | nil => simp at h
  | cons a as ih =>
    rcases h with ⟨x, hx, hfx⟩
    rcases List.mem_cons.mp hx with rfl | hmem
    · rw [List.filterMap_cons_none hfx, List.length_cons]
      exact Nat.lt_succ_of_le (List.length_filterMap_le f as)
    · cases hfa : f a with
      | none =>
        rw [List.filterMap_cons_none hfa, List.length_cons]
        exact Nat.lt_succ_of_le (List.length_filterMap_le f as)
      | some b =>
        rw [List.filterMap_cons_some hfa, List.length_cons, List.length_cons]
        exact Nat.succ_lt_succ (ih ⟨x, hmem, hfx⟩)

/-- C2 counterexample: with the single-step training schedule `[1/2]` and the
identical inference schedule, every inference cumulative-alpha value lies in
the (degenerate) training cumulative-alpha range, yet `T` is empty, because
the inner scan over `range(len(training_schedule) - 1)` has no candidate
indices; so `len(T)` is not the inference-schedule length. -/
theorem timewarp_length_counterexample :
    (∀ x ∈ alphaCum [(1:ℚ)/2],
        (alphaCum [(1:ℚ)/2]).getD (([(1:ℚ)/2] : List ℚ).length - 1) 0 ≤ x
          ∧ x ≤ (alphaCum [(1:ℚ)/2]).getD 0 0)
      ∧ (buildT (fun q => q) [(1:ℚ)/2] [(1:ℚ)/2]).length
          ≠ ([(1:ℚ)/2] : List ℚ).length := by
  with_unfolding_all decide

/-- C2 (amended: the training schedule has at least two steps): for beta
values in (0,1), if every inference cumulative-alpha value lies within the
training schedule's cumulative-alpha range then `len(T)` equals the
inference-schedule length; and if some inference cumulative-alpha value
falls strictly outside that range, that step is omitted and `T` is
strictly shorter. -/
theorem timewarp_length_amended (sq : ℚ → ℚ) (training inference : List ℚ)
    (htr : ∀ b ∈ training, 0 < b ∧ b < 1)
    (hinf : ∀ b ∈ inference, 0 < b ∧ b < 1)
    (hlen : 2 ≤ training.length) :
    ((∀ x ∈ alphaCum inference,
        (alphaCum training).getD (training.length - 1) 0 ≤ x
          ∧ x ≤ (alphaCum training).getD 0 0) →
      (buildT sq training inference).length = inference.length)
    ∧ ((∃ x ∈ alphaCum inference,
        x < (alphaCum training).getD (training.length - 1) 0
          ∨ (alphaCum training).getD 0 0 < x) →
      (buildT sq training inference).length < inference.length) := by
  have htclen : (alphaCum training).length = training.length := length_alphaCum training
  have haclen : (alphaCum inference).length = inference.length := length_alphaCum inference
  have hpw := (alphaCum_pairwise_lt training htr).1
  constructor
  · intro hin
    have hall : ∀ x ∈ alphaCum inference, (warpEntry sq (alphaCum training) x).isSome := by
      intro x hx
      rw [warpEntry_isSome_iff, findBracket_isSome_iff]
      obtain ⟨h1, h2⟩ := hin x hx
      have h1' : (alphaCum training).getD ((alphaCum training).length - 1) 0 ≤ x := by
        rw [htclen]; exact h1
      exact exists_bracket_of_range (alphaCum training) x
        (by rw [htclen]; exact hlen) h1' h2
    unfold buildT timeWarp
    rw [length_filterMap_of_all_isSome _ _ hall, haclen]
  · rintro ⟨x, hx, hout⟩
    have hout' : x < (alphaCum training).getD ((alphaCum training).length - 1) 0
        ∨ (alphaCum training).getD 0 0 < x := by rw [htclen]; exact hout
    have hnb := no_bracket_of_outside (alphaCum training) hpw x hout'
    have hni : ¬ (findBracket (alphaCum training) x).isSome := by
      rw [findBracket_isSome_iff]
      rintro ⟨u, hu1, hu2⟩
      exact hnb u hu1 hu2
    have hfb : findBracket (alphaCum training) x = none :=
      Option.not_isSome_iff_eq_none.mp hni
    have hnone : warpEntry sq (alphaCum training) x = none := by
      simp [warpEntry, hfb]
    unfold buildT timeWarp
    calc ((alphaCum inference).filterMap (warpEntry sq (alphaCum training))).length
        < (alphaCum inference).length :=
          length_filterMap_lt_of_none _ _ ⟨x, hx, hnone⟩
      _ = inference.length := haclen

/-- Witness for the amended C2 at training = inference = `[1/4, 1/2]`. -/
theorem timewarp_length_amended_witness :
    ((∀ b ∈ [(1:ℚ)/4, 1/2], 0 < b ∧ b < 1) ∧ 2 ≤ ([(1:ℚ)/4, 1/2] : List ℚ).length)
    ∧ (((∀ x ∈ alphaCum [(1:ℚ)/4, 1/2],
        (alphaCum [(1:ℚ)/4, 1/2]).getD (([(1:ℚ)/4, 1/2] : List ℚ).length - 1) 0 ≤ x
          ∧ x ≤ (alphaCum [(1:ℚ)/4, 1/2]).getD 0 0) →
      (buildT (fun q => q) [(1:ℚ)/4, 1/2] [(1:ℚ)/4, 1/2]).length
        = ([(1:ℚ)/4, 1/2] : List ℚ).length)
    ∧ ((∃ x ∈ alphaCum [(1:ℚ)/4, 1/2],
        x < (alphaCum [(1:ℚ)/4, 1/2]).getD (([(1:ℚ)/4, 1/2] : List ℚ).length - 1) 0
          ∨ (alphaCum [(1:ℚ)/4, 1/2]).getD 0 0 < x) →
      (buildT (fun q => q) [(1:ℚ)/4, 1/2] [(1:ℚ)/4, 1/2]).length
        < ([(1:ℚ)/4, 1/2] : List ℚ).length)) :=
  ⟨⟨by with_unfolding_all decide, by decide⟩,
    timewarp_length_amended _ _ _ (by with_unfolding_all decide)
      (by with_unfolding_all decide) (by decide)⟩

lemma filterMap_eq_map_range {α β : Type} (l : List α) (f : α → Option β) :
    ∀ g : ℕ → β, (∀ i (hi : i < l.length), f (l.get ⟨i, hi⟩) = some (g i)) →
      l.filterMap f = (List.range l.length).map g := by
  induction l with
  | nil => intro g _; rfl
  | cons a as ih =>
    intro g hg
    have h0 : f a = some (g 0) := hg 0 (by simp)
    have hrec := ih (fun i => g (i + 1)) (fun i hi => by
      have hstep := hg (i + 1) (by simp only [List.length_cons]; omega)
      simpa using hstep)
    rw [List.filterMap_cons_some h0, hrec, List.length_cons, List.range_succ_eq_map,
      List.map_cons, List.map_map]
    rfl

lemma warpEntry_self (sq : ℚ → ℚ) (hsq : StrictMono sq) (tc : List ℚ)
    (hpw : List.Pairwise (fun a b => b < a) tc) (hlen : 2 ≤ tc.length) :
    ∀ i (hi : i < tc.length), warpEntry sq tc (tc.get ⟨i, hi⟩) = some ((i : ℕ) : ℚ) := by
  intro i hi
  have hx : tc.get ⟨i, hi⟩ = tc.getD i 0 := (List.getD_eq_get tc 0 hi).symm
  rw [hx]
  cases i with
  | zero =>
    have hfb : findBracket tc (tc.getD 0 0) = some 0 := by
      rw [findBracket_eq_some_iff]
      exact ⟨by omega,
        ⟨le_of_lt (pairwise_getD_lt tc hpw (by omega) (by omega)), le_refl _⟩,
        fun v hv => absurd hv (by omega)⟩
    unfold warpEntry
    rw [hfb]
    simp
  | succ j =>
    have hfb : findBracket tc (tc.getD (j + 1) 0) = some j := by
      rw [findBracket_eq_some_iff]
      refine ⟨by omega,
        ⟨le_refl _, le_of_lt (pairwise_getD_lt tc hpw (by omega) hi)⟩, ?_⟩
      intro v hv hb
      obtain ⟨hv1, hv2⟩ := hb
      have hlt : tc.getD (j + 1) 0 < tc.getD (v + 1) 0 :=
        pairwise_getD_lt tc hpw (by omega) hi
      linarith
    unfold warpEntry
    rw [hfb]
    simp only [Option.map_some']
    congr 1
    have hne : sq (tc.getD j 0) - sq (tc.getD (j + 1) 0) ≠ 0 := by
      have hs := hsq (pairwise_getD_lt tc hpw (Nat.lt_succ_self j) hi)
      exact sub_ne_zero_of_ne (ne_of_gt hs)
    rw [div_self hne]
    push_cast
    ring

/-- C6 counterexample: for the single-step schedule `[1/2]` used as both the
training and the inference schedule, the builder emits the empty `T`, not
the identity time-warp `[0]`. -/
theorem identity_warp_counterexample :
    buildT (fun q => q) [(1:ℚ)/2] [(1:ℚ)/2]
      ≠ (List.range ([(1:ℚ)/2] : List ℚ).length).map (fun (n : ℕ) => (n : ℚ)) := by
  with_unfolding_all decide

/-- C6 (amended: the schedule has at least two steps, beta values in (0,1),
square root strictly monotone): when the inference schedule is identical to
the training schedule, the builder produces the identity time-warp,
`T[s] = s` exactly for every index `s`. -/
theorem identity_time_warp (sched : List ℚ) (sq : ℚ → ℚ) (hsq : StrictMono sq)
    (h01 : ∀ b ∈ sched, 0 < b ∧ b < 1) (hlen : 2 ≤ sched.length) :
    buildT sq sched sched = (List.range sched.length).map (fun (n : ℕ) => (n : ℚ)) := by
  have hpw := (alphaCum_pairwise_lt sched h01).1
  have hl : (alphaCum sched).length = sched.length := length_alphaCum sched
  have hmain := filterMap_eq_map_range (alphaCum sched) (warpEntry sq (alphaCum sched))
    (fun n => (n : ℚ))
    (fun i hi => warpEntry_self sq hsq (alphaCum sched) hpw (by rw [hl]; exact hlen) i hi)
  unfold buildT timeWarp
  rw [hmain, hl]

/-- Witness for the amended C6 at the schedule `[1/4, 1/2]` with the
identity as the (strictly monotone) square-root stand-in. -/
theorem identity_time_warp_witness :
    (StrictMono (fun q : ℚ => q) ∧ (∀ b ∈ [(1:ℚ)/4, 1/2], 0 < b ∧ b < 1)
        ∧ 2 ≤ ([(1:ℚ)/4, 1/2] : List ℚ).length)
      ∧ buildT (fun q : ℚ => q) [(1:ℚ)/4, 1/2] [(1:ℚ)/4, 1/2]
          = (List.range ([(1:ℚ)/4, 1/2] : List ℚ).length).map (fun (n : ℕ) => (n : ℚ)) :=
  ⟨⟨fun _ _ h => h, by with_unfolding_all decide, by decide⟩,
    identity_time_warp _ _ (fun _ _ h => h) (by with_unfolding_all decide) (by decide)⟩

lemma warpEntry_lt_of_gt (sq : ℚ → ℚ) (hsq : StrictMono sq) (tc : List ℚ)
    (hpw : List.Pairwise (fun a b => b < a) tc) {x y vx vy : ℚ} (hyx : y < x)
    (hx : warpEntry sq tc x = some vx) (hy : warpEntry sq tc y = some vy) :
    vx < vy := by
  unfold warpEntry at hx hy
  cases hfx : findBracket tc x with
  | none => rw [hfx] at hx; exact absurd hx (by simp)
  | some tx =>
  cases hfy : findBracket tc y with
  | none => rw [hfy] at hy; exact absurd hy (by simp)
  | some ty =>
  rw [hfx] at hx
  rw [hfy] at hy
  simp only [Option.map_some'] at hx hy
  have hvx := Option.some.inj hx
  have hvy := Option.some.inj hy
  obtain ⟨htx1, hbx, hminx⟩ := (findBracket_eq_some_iff tc x tx).mp hfx
  obtain ⟨hty1, hby, hminy⟩ := (findBracket_eq_some_iff tc y ty).mp hfy
  have hdx : 0 < sq (tc.getD tx 0) - sq (tc.getD (tx + 1) 0) :=
    sub_pos.mpr (hsq (pairwise_getD_lt tc hpw (Nat.lt_succ_self tx) htx1))
  have hdy : 0 < sq (tc.getD ty 0) - sq (tc.getD (ty + 1) 0) :=
    sub_pos.mpr (hsq (pairwise_getD_lt tc hpw (Nat.lt_succ_self ty) hty1))
  have htxty : tx ≤ ty := by
    by_contra hc
    push_neg at hc
    have h1 : tc.getD tx 0 ≤ tc.getD (ty + 1) 0 :=
      pairwise_getD_le tc hpw (by omega) (by omega)
    have hxy : x ≤ y := le_trans hbx.2 (le_trans h1 hby.1)
    linarith
  rcases Nat.eq_or_lt_of_le htxty with rfl | hlt
  · rw [← hvx, ← hvy]
    have hnum : sq (tc.getD tx 0) - sq x < sq (tc.getD tx 0) - sq y :=
      sub_lt_sub_left (hsq hyx) _
    have hdiv : (sq (tc.getD tx 0) - sq x) / (sq (tc.getD tx 0) - sq (tc.getD (tx + 1) 0))
        < (sq (tc.getD tx 0) - sq y) / (sq (tc.getD tx 0) - sq (tc.getD (tx + 1) 0)) := by
      rw [div_eq_mul_inv, div_eq_mul_inv]
      exact mul_lt_mul_of_pos_right hnum (inv_pos.mpr hdx)
    exact add_lt_add_left hdiv _
  · have hvxle : vx ≤ (tx : ℚ) + 1 := by
      rw [← hvx]
      have hnum_le : sq (tc.getD tx 0) - sq x
          ≤ sq (tc.getD tx 0) - sq (tc.getD (tx + 1) 0) :=
        sub_le_sub_left (hsq.monotone hbx.1) _
      have hdivle : (sq (tc.getD tx 0) - sq x)
          / (sq (tc.getD tx 0) - sq (tc.getD (tx + 1) 0)) ≤ 1 :=
        (div_le_one hdx).mpr hnum_le
      linarith
    have hcast : (tx : ℚ) + 1 ≤ (ty : ℚ) := by
      have hnat : (tx + 1 : ℕ) ≤ ty := hlt
      exact_mod_cast hnat
    have hystrict : y < tc.getD ty 0 := by
      rcases lt_or_eq_of_le hby.2 with h | h
      · exact h
      · exfalso
        obtain ⟨w, rfl⟩ : ∃ w, ty = w + 1 := ⟨ty - 1, by omega⟩
        apply hminy w (by omega)
        exact ⟨le_of_eq h.symm,
          le_of_lt (by rw [h]; exact pairwise_getD_lt tc hpw (Nat.lt_succ_self w) (by omega))⟩
    have htyvy : (ty : ℚ) < vy := by
      rw [← hvy]
      have hpos : 0 < (sq (tc.getD ty 0) - sq y)
          / (sq (tc.getD ty 0) - sq (tc.getD (ty + 1) 0)) :=
        div_pos (sub_pos.mpr (hsq hystrict)) hdy
      linarith
    linarith

/-- C9: for strictly decreasing training and inference cumulative-alpha
sequences (with a strictly monotone square root), the emitted time-warp
list is strictly increasing: every earlier emitted entry is strictly
smaller than every later one. -/
theorem warp_strictly_increasing (sq : ℚ → ℚ) (hsq : StrictMono sq)
    (tc acs : List ℚ)
    (htc : List.Pairwise (fun a b => b < a) tc)
    (hacs : List.Pairwise (fun a b => b < a) acs) :
    List.Pairwise (fun a b => a < b) (timeWarp sq tc acs) := by
  unfold timeWarp
  rw [List.pairwise_filterMap]
  refine hacs.imp ?_
  intro a a' h c hc c'  hc'
  exact warpEntry_lt_of_gt sq hsq tc htc h (Option.mem_def.mp hc) (Option.mem_def.mp hc')

/-- Witness for C9 at `tc = [3/4, 1/2, 1/4]`, `acs = [2/3, 1/3]` with the
identity as the strictly monotone square-root stand-in. -/
theorem warp_strictly_increasing_witness :
    (StrictMono (fun q : ℚ => q)
        ∧ List.Pairwise (fun a b : ℚ => b < a) [(3:ℚ)/4, 1/2, 1/4]
        ∧ List.Pairwise (fun a b : ℚ => b < a) [(2:ℚ)/3, 1/3])
      ∧ List.Pairwise (fun a b : ℚ => a < b)
          (timeWarp (fun q : ℚ => q) [(3:ℚ)/4, 1/2, 1/4] [(2:ℚ)/3, 1/3]) :=
  ⟨⟨fun _ _ h => h, by with_unfolding_all decide, by with_unfolding_all decide⟩,
    warp_strictly_increasing _ (fun _ _ h => h) _ _ (by with_unfolding_all decide)
      (by with_unfolding_all decide)⟩

/-- Elementwise scalar multiplication of a tensor. -/
def smulA (c : ℚ) (a : Audio) : Audio := a.map (fun v => c * v)

/-- Elementwise tensor addition. -/
def addA (a b : Audio) : Audio := List.zipWith (fun u v => u + v) a b

/-- Elementwise tensor subtraction. -/
def subA (a b : Audio) : Audio := List.zipWith (fun u v => u - v) a b

/-- Elementwise tensor multiplication (used for `noise * target_std`). -/
def mulA (a b : Audio) : Audio := List.zipWith (fun u v => u * v) a b

/-- `torch.clamp(v, -1.0, 1.0)` on one element. -/
def clamp1 (v : ℚ) : ℚ := min 1 (max (-1) v)

/-- `torch.clamp(audio, -1.0, 1.0)` (`inference.py` lines 167 and 338). -/
def clampA (a : Audio) : Audio := a.map clamp1

/-- The schedule arrays consumed by the sampling loop — the arguments
`T`, `alpha`, `alpha_cum`, `beta` of `predict`, computed once before the
loop at `inference.py` lines 267-283. -/
structure SamplerCfg where
  alpha : List ℚ
  alpha_cum : List ℚ
  beta : List ℚ
  T : List ℚ

/-- Number of loop iterations: `len(alpha)` (`inference.py` lines 147, 321). -/
def steps (cfg : SamplerCfg) : ℕ := cfg.alpha.length

/-- The iteration indices `n = len(alpha) - 1, ..., 1, 0` in execution
order (`range(len(alpha) - 1, -1, -1)`). -/
def loopIdxs (cfg : SamplerCfg) : List ℕ := (List.range (steps cfg)).reverse

/-- The denoising update (`inference.py` lines 148-159 and 322-330):
`c1 * (audio - c2 * f(audio, T[n]))` with `c1 = 1 / sqrt(alpha[n])` and
`c2 = beta[n] / sqrt(1 - alpha_cum[n])`; the spectrogram and auxiliary
conditioning, fixed through the loop, are folded into the opaque
denoiser `f`. -/
def denoised (sq : ℚ → ℚ) (cfg : SamplerCfg) (f : Audio → ℚ → Audio)
    (n : ℕ) (audio : Audio) : Audio :=
  smulA (1 / sq (cfg.alpha.getD n 0))
    (subA audio (smulA (cfg.beta.getD n 0 / sq (1 - cfg.alpha_cum.getD n 0))
      (f audio (cfg.T.getD n 0))))

/-- `sigma = sqrt((1 - alpha_cum[n-1]) / (1 - alpha_cum[n]) * beta[n])`
(`inference.py` lines 163-165 and 334-336). -/
def sigmaAt (sq : ℚ → ℚ) (cfg : SamplerCfg) (n : ℕ) : ℚ :=
  sq ((1 - cfg.alpha_cum.getD (n - 1) 0) / (1 - cfg.alpha_cum.getD n 0)
    * cfg.beta.getD n 0)

/-- One full iteration of the reverse-diffusion loop at step `n`
(`inference.py` lines 321-338): the denoising update, then — only when
`n > 0` — injection of fresh noise `noise n` scaled elementwise by
`target_std` and by `sigma`, then the clamp to `[-1, 1]`. -/
def sampleStep (sq : ℚ → ℚ) (cfg : SamplerCfg) (f : Audio → ℚ → Audio)
    (noise : ℕ → Audio) (std : Audio) (n : ℕ) (audio : Audio) : Audio :=
  clampA (if 0 < n then
      addA (denoised sq cfg f n audio)
        (smulA (sigmaAt sq cfg n) (mulA (noise n) std))
    else denoised sq cfg f n audio)

/-- All states of the loop: the initial audio draw followed by the state
after each iteration, in execution order. -/
def stateSeq (sq : ℚ → ℚ) (cfg : SamplerCfg) (f : Audio → ℚ → Audio)
    (noise : ℕ → Audio) (std : Audio) (init : Audio) : List Audio :=
  List.scanl (fun a n => sampleStep sq cfg f noise std n a) init (loopIdxs cfg)

/-- The audio states after each iteration (the initial draw removed). -/
def iterStates (sq : ℚ → ℚ) (cfg : SamplerCfg) (f : Audio → ℚ → Audio)
    (noise : ℕ → Audio) (std : Audio) (init : Audio) : List Audio :=
  (stateSeq sq cfg f noise std init).tail

/-- Result of running the whole loop, together with how many times the
loop body invoked the denoising model and how many times it drew fresh
injection noise. -/
structure RunResult where
  audio : Audio
  modelCalls : ℕ
  noiseDraws : ℕ

/-- The complete loop of `inference.py` lines 321-338 (equally, the loop of
`predict` at lines 147-167): one `model(...)` call per iteration, one fresh
noise draw per iteration with `n > 0`. -/
def runSampler (sq : ℚ → ℚ) (cfg : SamplerCfg) (f : Audio → ℚ → Audio)
    (noise : ℕ → Audio) (std init : Audio) : RunResult :=
  (loopIdxs cfg).foldl
    (fun r n =>
      RunResult.mk (sampleStep sq cfg f noise std n r.audio)
        (r.modelCalls + 1) (r.noiseDraws + (if 0 < n then 1 else 0)))
    (RunResult.mk init 0 0)

/-- `predict` (`inference.py` lines 129-169) with all randomness drawn from
a deterministic seeded generator `next`: the initial draw `z0` gives the
starting audio `z0 * target_std`, and each iteration with `n > 0` draws its
injection noise from the generator state threaded through the loop. -/
def predictSeeded {S : Type} (next : S → Audio × S) (sq : ℚ → ℚ)
    (cfg : SamplerCfg) (f : Audio → ℚ → Audio) (std : Audio) (s0 : S) : Audio :=
  let p0 := next s0
  ((loopIdxs cfg).foldl
    (fun (st : Audio × S) n =>
      if 0 < n then
        let pz := next st.2
        (clampA (addA (denoised sq cfg f n st.1)
          (smulA (sigmaAt sq cfg n) (mulA pz.1 std))), pz.2)
      else (clampA (denoised sq cfg f n st.1), st.2))
    (mulA p0.1 std, p0.2)).1

/-- Concrete single-step configuration used by the concrete instances. -/
def cfg1 : SamplerCfg := SamplerCfg.mk [1/2] [1/2] [1/2] [0]

/-- The constant-zero stub denoiser. -/
def fzero : Audio → ℚ → Audio := fun _ _ => [0]

/-- A constant injected-noise stream. -/
def nzero : ℕ → Audio := fun _ => [0]

lemma clamp1_bounds (v : ℚ) : -1 ≤ clamp1 v ∧ clamp1 v ≤ 1 := by
  unfold clamp1
  exact ⟨le_min (by norm_num) (le_max_left _ _), min_le_left _ _⟩

lemma mem_clampA_bounds (a : Audio) : ∀ v ∈ clampA a, -1 ≤ v ∧ v ≤ 1 := by
  intro v hv
  obtain ⟨u, -, rfl⟩ := List.mem_map.mp hv
  exact clamp1_bounds u

lemma scanl_cons_self {α β : Type} (g : α → β → α) (i : α) (l : List β) :
    List.scanl g i l = i :: (List.scanl g i l).tail := by
  cases l with
  | nil => rfl
  | cons x xs => rw [List.scanl_cons]; rfl

lemma mem_tail_scanl_is_step {α β : Type} (g : α → β → α) :
    ∀ (l : List β) (i : α), ∀ a ∈ (List.scanl g i l).tail, ∃ b n, a = g b n := by
  intro l
  induction l with
  | nil =>
    intro i a ha
    rw [List.scanl_nil] at ha
    exact absurd ha (by simp)
  | cons x xs ih =>
    intro i a ha
    rw [List.scanl_cons] at ha
    simp only [List.singleton_append, List.tail_cons] at ha
    rw [scanl_cons_self g (g i x) xs] at ha
    rcases List.mem_cons.mp ha with rfl | hmem
    · exact ⟨i, x, rfl⟩
    · exact ih (g i x) a hmem

/-- C4: after every iteration of the sampling loop (including the final
one), every element of the audio tensor lies in the closed interval
`[-1, 1]` — each iteration ends with the clamp at `inference.py` line 338
(line 167 in `predict`). -/
theorem sampler_clamp_invariant (sq : ℚ → ℚ) (cfg : SamplerCfg)
    (f : Audio → ℚ → Audio) (noise : ℕ → Audio) (std init : Audio) :
    ∀ a ∈ iterStates sq cfg f noise std init, ∀ v ∈ a, -1 ≤ v ∧ v ≤ 1 := by
  intro a ha
  unfold iterStates stateSeq at ha
  obtain ⟨b, n, rfl⟩ := mem_tail_scanl_is_step _ _ _ a ha
  intro v hv
  unfold sampleStep at hv
  exact mem_clampA_bounds _ v hv

/-- Witness for C4 at a concrete single-step run. -/
theorem sampler_clamp_invariant_witness :
    ([(1:ℚ)] ∈ iterStates (fun q : ℚ => q) cfg1 fzero nzero [(1:ℚ)] [(2:ℚ)])
      ∧ ((1:ℚ) ∈ [(1:ℚ)])
      ∧ (-1 ≤ (1:ℚ) ∧ (1:ℚ) ≤ 1) :=
  ⟨by with_unfolding_all decide, by with_unfolding_all decide,
    sampler_clamp_invariant (fun q : ℚ => q) cfg1 fzero nzero [(1:ℚ)] [(2:ℚ)]
      [(1:ℚ)] (by with_unfolding_all decide) 1 (by with_unfolding_all decide)⟩

lemma scanl_getD_succ {α β : Type} (g : α → β → α) :
    ∀ (l : List β) (i : α) (k : ℕ), k < l.length → ∀ (d : α) (db : β),
      (List.scanl g i l).getD (k + 1) d
        = g ((List.scanl g i l).getD k d) (l.getD k db) := by
  intro l
  induction l with
  | nil =>
    intro i k hk
    exact absurd hk (by simp)
  | cons x xs ih =>
    intro i k hk d db
    rw [List.scanl_cons]
    cases k with
    | zero =>
      simp only [List.singleton_append, List.getD_cons_succ, List.getD_cons_zero]
      rw [scanl_cons_self g (g i x) xs]
      rfl
    | succ j =>
      simp only [List.singleton_append, List.getD_cons_succ]
      exact ih (g i x) j (by simpa using hk) d db

lemma loopIdxs_length (cfg : SamplerCfg) : (loopIdxs cfg).length = steps cfg := by
  unfold loopIdxs
  simp

lemma loopIdxs_getD (cfg : SamplerCfg) (k : ℕ) (hk : k < steps cfg) (d : ℕ) :
    (loopIdxs cfg).getD k d = steps cfg - 1 - k := by
  unfold loopIdxs
  have hk' : k < (List.range (steps cfg)).reverse.length := by simpa using hk
  rw [List.getD_eq_getElem _ _ hk', List.getElem_reverse]
  simp

/-- C3: at the iteration processing step `n = len(schedule) - 1 - k` (the
`(k+1)`-st state of the loop), the audio state is updated to the clamp of
`c1 * (audio - c2 * f(audio, T[n]))` with `c1 = 1 / sqrt(alpha[n])`,
`c2 = beta[n] / sqrt(1 - alpha_cum[n])`, to which — exactly when `n > 0` —
fresh noise scaled elementwise by `target_std` and by
`sigma = sqrt((1 - alpha_cum[n-1]) / (1 - alpha_cum[n]) * beta[n])`
is first added. -/
theorem sampler_step_formula (sq : ℚ → ℚ) (cfg : SamplerCfg)
    (f : Audio → ℚ → Audio) (noise : ℕ → Audio) (std init : Audio)
    (k : ℕ) (hk : k < steps cfg) :
    (stateSeq sq cfg f noise std init).getD (k + 1) []
      = clampA (if 0 < steps cfg - 1 - k then
          addA (denoised sq cfg f (steps cfg - 1 - k)
              ((stateSeq sq cfg f noise std init).getD k []))
            (smulA (sigmaAt sq cfg (steps cfg - 1 - k))
              (mulA (noise (steps cfg - 1 - k)) std))
        else denoised sq cfg f (steps cfg - 1 - k)
            ((stateSeq sq cfg f noise std init).getD k [])) := by
  unfold stateSeq
  rw [scanl_getD_succ _ (loopIdxs cfg) init k (by rw [loopIdxs_length]; exact hk) [] 0]
  rw [loopIdxs_getD cfg k hk 0]
  rfl

/-- Witness for C3 at a concrete single-step run (`k = 0`). -/
theorem sampler_step_formula_witness :
    0 < steps cfg1
      ∧ (stateSeq (fun q : ℚ => q) cfg1 fzero nzero [(1:ℚ)] [(2:ℚ)]).getD (0 + 1) []
          = clampA (if 0 < steps cfg1 - 1 - 0 then
              addA (denoised (fun q : ℚ => q) cfg1 fzero (steps cfg1 - 1 - 0)
                  ((stateSeq (fun q : ℚ => q) cfg1 fzero nzero [(1:ℚ)] [(2:ℚ)]).getD 0 []))
                (smulA (sigmaAt (fun q : ℚ => q) cfg1 (steps cfg1 - 1 - 0))
                  (mulA (nzero (steps cfg1 - 1 - 0)) [(1:ℚ)]))
            else denoised (fun q : ℚ => q) cfg1 fzero (steps cfg1 - 1 - 0)
                ((stateSeq (fun q : ℚ => q) cfg1 fzero nzero [(1:ℚ)] [(2:ℚ)]).getD 0 [])) :=
  ⟨by decide, sampler_step_formula (fun q : ℚ => q) cfg1 fzero nzero [(1:ℚ)] [(2:ℚ)]
    0 (by decide)⟩

/-- C5: the sampler is deterministic — with all randomness (the initial
draw and every per-step injected noise) taken from a seeded generator, two
runs of `predict` on the same inputs from the same seed produce identical
output audio; the loop contains no other source of variation. -/
theorem sampler_deterministic {S : Type} (next : S → Audio × S) (sq : ℚ → ℚ)
    (cfg : SamplerCfg) (f : Audio → ℚ → Audio) (std : Audio) (s1 s2 : S)
    (h : s1 = s2) :
    predictSeeded next sq cfg f std s1 = predictSeeded next sq cfg f std s2 := by
  rw [h]

/-- Witness for C5 with the constant-zero stub denoiser and a trivial
generator from seed `0`. -/
theorem sampler_deterministic_witness :
    (0 : ℕ) = 0
      ∧ predictSeeded (fun s : ℕ => ([(0:ℚ)], s)) (fun q : ℚ => q) cfg1 fzero
            [(1:ℚ)] 0
          = predictSeeded (fun s : ℕ => ([(0:ℚ)], s)) (fun q : ℚ => q) cfg1 fzero
            [(1:ℚ)] 0 :=
  ⟨rfl, sampler_deterministic (fun s : ℕ => ([(0:ℚ)], s)) (fun q : ℚ => q) cfg1 fzero
    [(1:ℚ)] 0 0 rfl⟩

/-- C8: with a schedule of length 1, the loop performs exactly one call to
the external denoising function, draws no fresh injection noise (the
`n > 0` branch never executes, so the final audio is just the clamped
denoising update of the initial audio), and the resulting audio is clamped
elementwise to `[-1, 1]`. -/
theorem single_step_run (sq : ℚ → ℚ) (cfg : SamplerCfg) (f : Audio → ℚ → Audio)
    (noise : ℕ → Audio) (std init : Audio) (h1 : steps cfg = 1) :
    (runSampler sq cfg f noise std init).modelCalls = 1
      ∧ (runSampler sq cfg f noise std init).noiseDraws = 0
      ∧ (runSampler sq cfg f noise std init).audio
          = clampA (denoised sq cfg f 0 init)
      ∧ ∀ v ∈ (runSampler sq cfg f noise std init).audio, -1 ≤ v ∧ v ≤ 1 := by
  have hidx : loopIdxs cfg = [0] := by
    unfold loopIdxs
    rw [h1]
    rfl
  have hrun : runSampler sq cfg f noise std init
      = RunResult.mk (sampleStep sq cfg f noise std 0 init) 1 0 := by
    unfold runSampler
    rw [hidx]
    rfl
  rw [hrun]
  refine ⟨rfl, rfl, ?_, ?_⟩
  · show sampleStep sq cfg f noise std 0 init = clampA (denoised sq cfg f 0 init)
    unfold sampleStep
    rw [if_neg (by omega)]
  · show ∀ v ∈ sampleStep sq cfg f noise std 0 init, -1 ≤ v ∧ v ≤ 1
    intro v hv
    unfold sampleStep at hv
    exact mem_clampA_bounds _ v hv

/-- Witness for C8 at the concrete single-step configuration. -/
theorem single_step_run_witness :
    steps cfg1 = 1
      ∧ ((runSampler (fun q : ℚ => q) cfg1 fzero nzero [(1:ℚ)] [(2:ℚ)]).modelCalls = 1
        ∧ (runSampler (fun q : ℚ => q) cfg1 fzero nzero [(1:ℚ)] [(2:ℚ)]).noiseDraws = 0
        ∧ (runSampler (fun q : ℚ => q) cfg1 fzero nzero [(1:ℚ)] [(2:ℚ)]).audio
            = clampA (denoised (fun q : ℚ => q) cfg1 fzero 0 [(2:ℚ)])
        ∧ ∀ v ∈ (runSampler (fun q : ℚ => q) cfg1 fzero nzero [(1:ℚ)] [(2:ℚ)]).audio,
            -1 ≤ v ∧ v ≤ 1) :=
  ⟨by decide, single_step_run (fun q : ℚ => q) cfg1 fzero nzero [(1:ℚ)] [(2:ℚ)]
    (by decide)⟩
